import Mathlib

/-!
Verification of the ECG-verification pushdown automaton
(`src/pda/automaton.py`, class `ECGPDA`).

The automaton is embedded shallowly: states, input symbols and stack
symbols are the same string literals the Python code uses; the mutable
configuration becomes an explicit `Config` value threaded through the
step function; the Python list used as a stack (top at the end, `append`
to push, `pop` to pop) is modelled as a Lean `List` with the TOP at the
HEAD, so Python `stack[-1]` is `stack.head?`, `append x` is `x :: ·`,
and pushing `reversed(stack_action)` element by element yields the list
`stack_action ++ rest`.  Floating point arithmetic in `compute_vcs`
(division by `6.0`, `min` with `1.0`) is modelled over `ℚ`; every value
that arises (`k/6` for small `k`) is exactly representable in binary64
only when `6 ∣ k`, but all the properties proved here (exact value `1`
on acceptance, monotonicity in the confirm count, the cap at six
confirmations) are rounding-independent.
-/

namespace ECGPDA

/-- Input alphabet: the twelve ECG lead identifiers (`self.sigma_leads`). -/
def sigma_leads : List String :=
  ["I", "II", "III", "aR", "aL", "aF", "V1", "V2", "V3", "V4", "V5", "V6"]

/-- Input alphabet: the five ECG feature identifiers (`self.sigma_features`). -/
def sigma_features : List String :=
  ["P", "Q", "S", "T", "R"]

/-- Input alphabet: control actions (`self.sigma_actions`). -/
def sigma_actions : List String := ["O", "C", "A"]

/-- Input alphabet: verification symbols (`self.sigma_verification`). -/
def sigma_verification : List String := ["V", "✓"]

/-- The set of accepting states `self.F` (a singleton). -/
def F : List String := ["q6"]

/-- A transition-table entry: key `(state, input symbol, stack top)`,
value `(next state, replacement sequence)`. -/
abbrev Entry := (String × String × String) × (String × List String)

/-- The transition table of `_build_transitions`, as the ordered list of
`dict` insertions the Python code performs.  The Python `for` loops over
`self.sigma_leads` / `self.sigma_features` become `List.bind`; since no
key is inserted twice (proved below), the resulting `dict` is this
association list. -/
def deltaEntries : List Entry :=
  -- Phase 1: Overview
  [(("q0", "O", "Z0"), ("q1", ["Z0"])),
   (("q1", "O", "Z0"), ("q1", ["Z0"])),
  -- Phase 2: Rhythm assessment
   (("q1", "R", "Z0"), ("q2", ["Rm", "Z0"])),
   (("q2", "R", "Rm"), ("q2", ["Rm"]))]
  -- Phase 3: Detailed examination, lead level
  ++ (sigma_leads.flatMap fun lead =>
       [(("q2", lead, "Rm"), ("q3", ["Lm", "Rm"])),
        (("q3", lead, "Lm"), ("q3", ["Lm"])),
        (("q4", lead, "Fm"), ("q3", ["Lm", "Rm"]))])
  -- Phase 4: Feature examination
  ++ (sigma_features.flatMap fun feat =>
       [(("q3", feat, "Lm"), ("q4", ["Fm", "Lm"])),
        (("q4", feat, "Fm"), ("q4", ["Fm"]))])
  -- Phase 5: Verification initiation
  ++ [(("q4", "V", "Fm"), ("q5", ["Vm", "Fm"])),
      (("q3", "V", "Lm"), ("q5", ["Vm", "Lm"])),
  -- Phase 6: Verification, stack unwinding
      (("q5", "✓", "Fm"), ("q5", [])),
      (("q5", "✓", "Lm"), ("q5", [])),
      (("q5", "✓", "Vm"), ("q5", [])),
      (("q5", "✓", "Rm"), ("q5", ["Rm"]))]
  -- Phase 6: revisiting leads/features during verification
  ++ (sigma_leads.flatMap fun lead =>
       [(("q5", lead, "Vm"), ("q5", ["Vm"])),
        (("q5", lead, "Rm"), ("q5", ["Rm"])),
        (("q5", lead, "Lm"), ("q5", ["Lm"])),
        (("q5", lead, "Fm"), ("q5", ["Fm"]))])
  ++ (sigma_features.flatMap fun feat =>
       [(("q5", feat, "Vm"), ("q5", ["Vm"])),
        (("q5", feat, "Fm"), ("q5", ["Fm"])),
        (("q5", feat, "Lm"), ("q5", ["Lm"]))])
  -- Phase 7: Completion
  ++ [(("q5", "O", "Rm"), ("q6", ["Z0"])),
      (("q5", "O", "Z0"), ("q6", ["Z0"])),
      (("q5", "O", "Lm"), ("q6", ["Z0"])),
      (("q5", "O", "Fm"), ("q6", ["Z0"]))]

/-- Lookup in the transition dictionary `self.delta`. -/
def delta (key : String × String × String) : Option (String × List String) :=
  deltaEntries.lookup key

/-- The runtime configuration `(self.current_state, self.stack)`.
The stack stores its top at the head of the list. -/
structure Config where
  current_state : String
  stack : List String
deriving DecidableEq, Repr

/-- The configuration established by `__init__` and by `reset()`:
state `q0`, stack `['Z0']`. -/
def reset : Config := ⟨"q0", ["Z0"]⟩

/-- One call of `step(symbol)`: returns the success flag together with
the configuration after the call (unchanged when the step fails). -/
def step (c : Config) (symbol : String) : Bool × Config :=
  match c.stack with
  | [] => (false, c)
  | stack_top :: rest =>
    match delta (c.current_state, symbol, stack_top) with
    | none => (false, c)
    | some (new_state, stack_action) =>
      (true, ⟨new_state, stack_action ++ rest⟩)

/-- Replay of the `accepts` loop from a given configuration: `none` as
soon as a step fails (the remaining symbols are not processed),
otherwise the configuration after all symbols. -/
def run? (c : Config) : List String → Option Config
  | [] => some c
  | s :: rest =>
    match step c s with
    | (true, c') => run? c' rest
    | (false, _) => none

/-- The final acceptance test of `accepts`: current state in `F` and
`'Z0' in self.stack`. -/
def acceptCond (c : Config) : Bool :=
  F.contains c.current_state && c.stack.contains "Z0"

/-- The body of `accepts` after tokenization: reset, replay, returning
`false` at the first failed step, else test the final configuration. -/
def accepts (symbols : List String) : Bool :=
  match run? reset symbols with
  | some c => acceptCond c
  | none => false

/-- Helper for `tokenize`: scan the character list, accumulating the
characters of the current token in reverse; a whitespace character ends
the current token (emitting it when non-empty), so runs of whitespace
produce no empty tokens. -/
def splitWsAux : List Char → List Char → List String
  | [], acc => if acc.isEmpty then [] else [String.mk acc.reverse]
  | c :: cs, acc =>
    if c.isWhitespace then
      (if acc.isEmpty then [] else [String.mk acc.reverse]) ++ splitWsAux cs []
    else splitWsAux cs (c :: acc)

/-- Python `str.split()` with no argument: split on runs of whitespace,
discarding empty pieces. -/
def tokenize (s : String) : List String :=
  splitWsAux s.toList []

/-- `accepts` on a string scanpath: tokenize, then run. -/
def acceptsStr (scanpath : String) : Bool :=
  accepts (tokenize scanpath)

/-- `get_stack_depth()`: `len(self.stack) - 1`, as an integer. -/
def get_stack_depth (c : Config) : Int :=
  (c.stack.length : Int) - 1

/-- The loop of `get_max_stack_depth`: step through every symbol
(ignoring failure: a failed step leaves the configuration unchanged),
tracking the running maximum of `get_stack_depth` after each step. -/
def maxDepthFrom (c : Config) (max_depth : Int) : List String → Int
  | [] => max_depth
  | s :: rest =>
    let c' := (step c s).2
    maxDepthFrom c' (max max_depth (get_stack_depth c')) rest

/-- `get_max_stack_depth(scanpath)` on a tokenized scanpath. -/
def get_max_stack_depth (symbols : List String) : Int :=
  maxDepthFrom reset 0 symbols

/-- `compute_vcs(scanpath)` on a tokenized scanpath, over `ℚ`:
`1` when accepted, else `min (count of the confirm symbol / 6) 1`. -/
def compute_vcs (symbols : List String) : ℚ :=
  if accepts symbols then 1
  else min ((symbols.count "✓" : ℚ) / 6) 1

/-- Apply `step` once per symbol, keeping the configuration of a failed
step unchanged and continuing: the configuration reached after an
arbitrary finite sequence of `step` calls. -/
def runAll (c : Config) : List String → Config
  | [] => c
  | s :: rest => runAll (step c s).2 rest

/-! ## Helper lemmas shared between the claim theorems -/

/-- A successful association-list lookup returns the value of a member
entry whose key equals the one looked up. -/
theorem lookup_mem {α β : Type} [BEq α] [LawfulBEq α]
    {l : List (α × β)} {k : α} {v : β}
    (h : l.lookup k = some v) : (k, v) ∈ l := by
  induction l with
  | nil => simp [List.lookup] at h
  | cons p t ih =>
    obtain ⟨a, b⟩ := p
    rw [List.lookup] at h
    rcases hk : (k == a) with _ | _ <;> rw [hk] at h
    · exact List.mem_cons_of_mem _ (ih h)
    · obtain rfl : b = v := by injection h
      obtain rfl : k = a := eq_of_beq hk
      exact List.mem_cons_self _ _

/-- A successful `delta` lookup exposes a member of the entry list. -/
theorem delta_mem {k : String × String × String} {v : String × List String}
    (h : delta k = some v) : (k, v) ∈ deltaEntries :=
  lookup_mem h

/-- Table audit: no entry has source state `q6`. -/
theorem deltaEntries_source_ne_q6 :
    deltaEntries.all (fun e => e.1.1 != "q6") = true := by decide

/-- Table audit: every rule whose key has `Z0` on top of the stack has a
replacement sequence whose deepest pushed symbol is again `Z0`. -/
theorem deltaEntries_z0_keeps_bottom :
    deltaEntries.all
      (fun e => e.1.2.2 != "Z0" || e.2.2.getLast? == some "Z0") = true := by
  decide

/-- Table audit: in state `q5` every lead symbol self-loops and keeps
the stack for each of the four markers on top. -/
theorem q5_lead_revisit :
    (sigma_leads.all fun s => ["Vm", "Rm", "Lm", "Fm"].all fun m =>
      delta ("q5", s, m) == some ("q5", [m])) = true := by decide

/-- Table audit: in state `q5` every feature symbol self-loops and keeps
the stack for `Vm`, `Fm` and `Lm` on top. -/
theorem q5_feature_revisit :
    (sigma_features.all fun s => ["Vm", "Fm", "Lm"].all fun m =>
      delta ("q5", s, m) == some ("q5", [m])) = true := by decide

/-- Unfolding a successful `step`: with `top :: rest` on the stack and a
rule for `(state, symbol, top)`, the step succeeds, moves to the rule's
next state and replaces the top by the whole replacement sequence. -/
theorem step_eq_of_rule (c : Config) (s top q' : String)
    (rest repl : List String)
    (hst : c.stack = top :: rest)
    (hd : delta (c.current_state, s, top) = some (q', repl)) :
    step c s = (true, ⟨q', repl ++ rest⟩) := by
  obtain ⟨q, st⟩ := c
  simp only at hst hd
  subst hst
  simp [step, hd]

/-- A failed `step` leaves the configuration unchanged. -/
theorem step_fail_eq (c : Config) (s : String)
    (h : (step c s).1 = false) : (step c s).2 = c := by
  obtain ⟨q, st⟩ := c
  rcases st with _ | ⟨top, rest⟩
  · rfl
  · rcases hd : delta (q, s, top) with _ | ⟨q', repl⟩
    · simp [step, hd]
    · simp [step, hd] at h

/-- `run?` over a concatenation: run the first part; when it survives,
continue with the second from the reached configuration. -/
theorem run_append (xs ys : List String) (c : Config) :
    run? c (xs ++ ys) = (run? c xs).bind fun c' => run? c' ys := by
  induction xs generalizing c with
  | nil => simp [run?]
  | cons s rest ih =>
    rw [List.cons_append, run?, run?]
    rcases h : step c s with ⟨ok, c'⟩
    rcases ok with _ | _
    · simp
    · exact ih c'

/-- One `step` preserves the property that the deepest stack symbol is
`Z0`. -/
theorem step_preserves_bottom (c : Config) (s : String)
    (h : c.stack.getLast? = some "Z0") :
    ((step c s).2).stack.getLast? = some "Z0" := by
  obtain ⟨q, st⟩ := c
  rcases st with _ | ⟨top, rest⟩
  · simp at h
  · rcases hd : delta (q, s, top) with _ | ⟨q', repl⟩
    · simpa [step, hd] using h
    · have hall := List.all_eq_true.mp deltaEntries_z0_keeps_bottom _ (delta_mem hd)
      simp only [step, hd]
      rcases rest with _ | ⟨r, rs⟩
      · obtain rfl : top = "Z0" := by simpa using h
        simp at hall
        simpa [List.getLast?_append] using hall
      · have hrest : (r :: rs).getLast? = some "Z0" := by
          simpa [List.getLast?_cons_cons] using h
        simp [List.getLast?_append, hrest]

/-- Every finite run from a configuration whose deepest stack symbol is
`Z0` keeps `Z0` as the deepest stack symbol. -/
theorem runAll_bottom (symbols : List String) (c : Config)
    (h : c.stack.getLast? = some "Z0") :
    (runAll c symbols).stack.getLast? = some "Z0" := by
  induction symbols generalizing c with
  | nil => exact h
  | cons s rest ih => exact ih _ (step_preserves_bottom c s h)

/-- The running maximum of `maxDepthFrom` never falls below its
accumulator. -/
theorem maxDepthFrom_le (l : List String) (c : Config) (m : Int) :
    m ≤ maxDepthFrom c m l := by
  induction l generalizing c m with
  | nil => exact le_refl m
  | cons s rest ih =>
    exact le_trans (le_max_left _ _) (ih (step c s).2 _)

/-- The accumulator of `maxDepthFrom` distributes over `max`. -/
theorem maxDepthFrom_max (l : List String) (c : Config) (a b : Int) :
    maxDepthFrom c (max a b) l = max a (maxDepthFrom c b l) := by
  induction l generalizing c a b with
  | nil => rfl
  | cons s rest ih =>
    rw [maxDepthFrom, maxDepthFrom, max_assoc]
    exact ih (step c s).2 a _

/-! ## Claim theorems -/

/-- C1: `accepts` resets, replays the symbols in order and short-circuits:
a scanpath on which some step fails (the replay of its longest surviving
prefix reaches `c` and the next symbol has no rule) is rejected with the
remaining symbols unprocessed; and `accepts` is `true` exactly when the
whole replay survives, the final state is the accepting state `q6`, and
`Z0` occurs somewhere in the final stack — so every scanpath whose final
state is not `q6` is rejected regardless of the stack. -/
theorem C1_accepts_characterization (symbols : List String) :
    (accepts symbols = true ↔
      ∃ c, run? reset symbols = some c ∧
        c.current_state = "q6" ∧ "Z0" ∈ c.stack) ∧
    (∀ pre s post c, symbols = pre ++ s :: post →
      run? reset pre = some c → (step c s).1 = false →
      run? reset symbols = none ∧ accepts symbols = false) := by
  constructor
  · rw [accepts]
    rcases h : run? reset symbols with _ | c
    · simp
    · simp [acceptCond, F, List.contains]
  · rintro pre s post c rfl hpre hfail
    have hstep : step c s = (false, (step c s).2) := by
      rcases h : step c s with ⟨ok, c'⟩
      rw [h] at hfail
      simp at hfail
      rw [hfail]
    have hnone : run? reset (pre ++ s :: post) = none := by
      rw [run_append, hpre]
      show run? c (s :: post) = none
      rw [run?, hstep]
    exact ⟨hnone, by rw [accepts, hnone]⟩

/-- C1 witness: the characterization applied to two concrete scanpaths.
`["O", "C"]` fails at the second step (no rule for `C` in `q1`) and is
rejected; the spec's accepted example satisfies the final-configuration
test with residue above `Z0`. -/
theorem C1_accepts_characterization_witness :
    accepts ["O", "C"] = false ∧
    accepts (tokenize "O R II P Q V ✓ ✓ O") = true :=
  ⟨((C1_accepts_characterization ["O", "C"]).2 ["O"] "C" []
      ⟨"q1", ["Z0"]⟩ rfl (by decide) (by decide)).2,
   (C1_accepts_characterization (tokenize "O R II P Q V ✓ ✓ O")).1.mpr
      ⟨⟨"q6", ["Z0", "Rm", "Z0"]⟩, by decide, rfl, by decide⟩⟩

/-- C2 counterexample: replaying `O R II P Q V ✓ ✓` reaches the
verification state `q5` with stack `[Lm, Rm, Z0]` (top first); the
completion step on `O` succeeds but produces the stack `[Z0, Rm, Z0]`,
which is not "only the Bottom symbol `Z0`": the pending `Rm` below the
top is NOT discharged. -/
theorem C2_counterexample :
    run? reset (tokenize "O R II P Q V ✓ ✓") =
      some ⟨"q5", ["Lm", "Rm", "Z0"]⟩ ∧
    step ⟨"q5", ["Lm", "Rm", "Z0"]⟩ "O" =
      (true, ⟨"q6", ["Z0", "Rm", "Z0"]⟩) ∧
    (((⟨"q6", ["Z0", "Rm", "Z0"]⟩ : Config).stack = ["Z0"]) = False) := by
  refine ⟨by decide, by decide, eq_false (by decide)⟩

/-- C2 (amended): reading `O` in the verification state `q5` with `Rm`,
`Lm`, `Fm` or `Z0` on top moves to the accepting state `q6` and replaces
only the TOP stack symbol by `Z0`; the symbols below the top stay on the
stack (the stack becomes exactly `[Z0]` only when the popped top was the
only symbol), so pending markers below the top are not discharged. -/
theorem C2_completion_replaces_top (t : String) (rest : List String)
    (h : t = "Rm" ∨ t = "Z0" ∨ t = "Lm" ∨ t = "Fm") :
    step ⟨"q5", t :: rest⟩ "O" = (true, ⟨"q6", "Z0" :: rest⟩) := by
  have hd : delta ("q5", "O", t) = some ("q6", ["Z0"]) := by
    rcases h with rfl | rfl | rfl | rfl <;> decide
  exact step_eq_of_rule ⟨"q5", t :: rest⟩ "O" t "q6" rest ["Z0"] rfl hd

/-- C2 witness: completion from `q5` with `Rm` on top of `[Lm, Z0]`
keeps the two lower symbols. -/
theorem C2_completion_replaces_top_witness :
    step ⟨"q5", ["Rm", "Lm", "Z0"]⟩ "O" =
      (true, ⟨"q6", ["Z0", "Lm", "Z0"]⟩) :=
  C2_completion_replaces_top "Rm" ["Lm", "Z0"] (Or.inl rfl)

/-- C3 counterexample: the rule for `(q1, R, Z0)` has replacement
sequence `[Rm, Z0]`, whose last element is `Z0`; yet after the step the
new top of the stack is `Rm`, not `Z0` — the FIRST element of the
replacement sequence ends up on top, refuting "the last (rightmost)
element of the replacement sequence ends up as the new top". -/
theorem C3_counterexample :
    delta ("q1", "R", "Z0") = some ("q2", ["Rm", "Z0"]) ∧
    (["Rm", "Z0"] : List String).getLast? = some "Z0" ∧
    step ⟨"q1", ["Z0"]⟩ "R" = (true, ⟨"q2", ["Rm", "Z0"]⟩) ∧
    ((step ⟨"q1", ["Z0"]⟩ "R").2.stack.head? = some "Rm") ∧
    (((step ⟨"q1", ["Z0"]⟩ "R").2.stack.head? = some "Z0") = False) := by
  refine ⟨by decide, by decide, by decide, by decide, eq_false (by decide)⟩

/-- C3 (amended): a successful step pops the top symbol and pushes the
replacement sequence iterating it in REVERSED order, so that the whole
sequence sits above the remainder with its first (leftmost) element as
the new top of the stack; an empty replacement sequence leaves the stack
one element shorter. -/
theorem C3_push_order (c : Config) (s top q' : String)
    (rest repl : List String)
    (hst : c.stack = top :: rest)
    (hd : delta (c.current_state, s, top) = some (q', repl)) :
    step c s = (true, ⟨q', repl ++ rest⟩) ∧
    (∀ x xs, repl = x :: xs → ((step c s).2).stack.head? = some x) ∧
    (repl = [] → ((step c s).2).stack.length + 1 = c.stack.length) := by
  have h := step_eq_of_rule c s top q' rest repl hst hd
  refine ⟨h, ?_, ?_⟩
  · rintro x xs rfl
    rw [h]
    rfl
  · rintro rfl
    rw [h, hst]
    simp

/-- C3 witness: the push-order characterization at the `(q1, R, Z0)`
rule; the new top is `Rm`, the first element of the replacement. -/
theorem C3_push_order_witness :
    step ⟨"q1", ["Z0"]⟩ "R" = (true, ⟨"q2", ["Rm", "Z0"]⟩) ∧
    (step ⟨"q1", ["Z0"]⟩ "R").2.stack.head? = some "Rm" :=
  ⟨(C3_push_order ⟨"q1", ["Z0"]⟩ "R" "Z0" "q2" [] ["Rm", "Z0"]
      rfl (by decide)).1,
   (C3_push_order ⟨"q1", ["Z0"]⟩ "R" "Z0" "q2" [] ["Rm", "Z0"]
      rfl (by decide)).2.1 "Rm" ["Z0"] rfl⟩

/-- C4 counterexample: replaying `O R II P Q V ✓ ✓ ✓` reaches `q5` with
the rhythm marker `Rm` on top; the feature symbol `P` then has no rule
(`(q5, P, Rm)` is not in the table), so `step` FAILS — refuting "Step
succeeds for every feature symbol regardless of which marker is on
top". -/
theorem C4_counterexample :
    run? reset (tokenize "O R II P Q V ✓ ✓ ✓") =
      some ⟨"q5", ["Rm", "Z0"]⟩ ∧
    "P" ∈ sigma_features ∧
    delta ("q5", "P", "Rm") = none ∧
    step ⟨"q5", ["Rm", "Z0"]⟩ "P" = (false, ⟨"q5", ["Rm", "Z0"]⟩) ∧
    (((step ⟨"q5", ["Rm", "Z0"]⟩ "P").1 = true) = False) := by
  refine ⟨by decide, by decide, by decide, by decide, eq_false (by decide)⟩

/-- C4 (amended): in the verification state `q5`, every lead symbol
self-loops leaving the state and the whole stack unchanged for each of
the four markers `Vm`, `Rm`, `Lm`, `Fm` on top; every feature symbol
does so only for `Vm`, `Fm`, `Lm` on top — a feature symbol with the
rhythm marker `Rm` on top has no rule and fails. -/
theorem C4_q5_revisit (s m : String) (rest : List String)
    (h : s ∈ sigma_leads ∧ m ∈ ["Vm", "Rm", "Lm", "Fm"] ∨
         s ∈ sigma_features ∧ m ∈ ["Vm", "Fm", "Lm"]) :
    step ⟨"q5", m :: rest⟩ s = (true, ⟨"q5", m :: rest⟩) := by
  have hd : delta ("q5", s, m) = some ("q5", [m]) := by
    rcases h with ⟨hs, hm⟩ | ⟨hs, hm⟩
    · exact eq_of_beq (List.all_eq_true.mp
        (List.all_eq_true.mp q5_lead_revisit _ hs) _ hm)
    · exact eq_of_beq (List.all_eq_true.mp
        (List.all_eq_true.mp q5_feature_revisit _ hs) _ hm)
  exact step_eq_of_rule ⟨"q5", m :: rest⟩ s m "q5" rest [m] rfl hd

/-- C4 witness: revisiting lead `II` in `q5` with `Vm` on a deep stack
succeeds and changes nothing. -/
theorem C4_q5_revisit_witness :
    step ⟨"q5", ["Vm", "Fm", "Lm", "Rm", "Z0"]⟩ "II" =
      (true, ⟨"q5", ["Vm", "Fm", "Lm", "Rm", "Z0"]⟩) :=
  C4_q5_revisit "II" "Vm" ["Fm", "Lm", "Rm", "Z0"]
    (Or.inl ⟨by decide, by decide⟩)

/-- C5: the three concrete scanpaths of the spec: the complete expert
pattern is accepted, the pattern with no verification phase and the
pattern with an unfinished verification phase are rejected. -/
theorem C5_concrete_scanpaths :
    acceptsStr "O R II P Q V ✓ ✓ O" = true ∧
    acceptsStr "O R II P Q" = false ∧
    acceptsStr "O R II P Q V ✓" = false := by
  refine ⟨by decide, by decide, by decide⟩

/-- C6: the verification-completeness score is exactly `1` on accepted
scanpaths, and otherwise equals `min (count of the confirm symbol / 6) 1`
over the raw input sequence; hence it lies in `[0, 1]`, is monotonically
non-decreasing in the confirm count on non-accepted scanpaths, and on a
non-accepted scanpath equals the cap `1` exactly when the confirm count
is at least `6` (so the cap is first reached at `6` occurrences). -/
theorem C6_vcs_spec (symbols : List String) :
    (accepts symbols = true → compute_vcs symbols = 1) ∧
    (accepts symbols = false →
      compute_vcs symbols = min ((symbols.count "✓" : ℚ) / 6) 1) ∧
    0 ≤ compute_vcs symbols ∧ compute_vcs symbols ≤ 1 ∧
    (∀ t, accepts symbols = false → accepts t = false →
      symbols.count "✓" ≤ t.count "✓" →
      compute_vcs symbols ≤ compute_vcs t) ∧
    (accepts symbols = false →
      (compute_vcs symbols = 1 ↔ 6 ≤ symbols.count "✓")) := by
  refine ⟨fun h => by simp [compute_vcs, h],
    fun h => by simp [compute_vcs, h], ?_, ?_, ?_, ?_⟩
  · rw [compute_vcs]
    split
    · norm_num
    · exact le_min (div_nonneg (Nat.cast_nonneg _) (by norm_num)) zero_le_one
  · rw [compute_vcs]
    split
    · exact le_refl 1
    · exact min_le_right _ _
  · intro t h ht hc
    rw [compute_vcs, compute_vcs, if_neg (by simp [h]), if_neg (by simp [ht])]
    have hq : (symbols.count "✓" : ℚ) ≤ (t.count "✓" : ℚ) := by
      exact_mod_cast hc
    exact min_le_min (by gcongr) (le_refl 1)
  · intro h
    rw [compute_vcs, if_neg (by simp [h]), min_eq_right_iff,
      le_div_iff₀ (by norm_num : (0 : ℚ) < 6)]
    rw [one_mul]
    exact_mod_cast Iff.rfl

/-- C6 witness: the score of one confirm symbol on a rejected scanpath
is below that of two, and the accepted expert scanpath scores `1`. -/
theorem C6_vcs_spec_witness :
    compute_vcs ["✓"] ≤ compute_vcs ["✓", "✓"] ∧
    compute_vcs (tokenize "O R II P Q V ✓ ✓ O") = 1 :=
  ⟨(C6_vcs_spec ["✓"]).2.2.2.2.1 ["✓", "✓"] (by decide) (by decide)
      (by decide),
   (C6_vcs_spec (tokenize "O R II P Q V ✓ ✓ O")).1 (by decide)⟩

/-- C7: `get_max_stack_depth` resets, then steps through each symbol —
a failed step leaves the configuration unchanged and processing
continues — recording `stack length − 1` after each step and returning
the running maximum started at `0`: the result satisfies the recurrence
`max (depth after the first step) (maximum over the rest)`, is `0` on
the empty scanpath, and is never negative. -/
theorem C7_max_stack_depth (symbols : List String) :
    0 ≤ get_max_stack_depth symbols ∧
    get_max_stack_depth [] = 0 ∧
    (∀ c s, (step c s).1 = false → (step c s).2 = c) ∧
    (∀ c s rest, maxDepthFrom c 0 (s :: rest) =
      max (get_stack_depth ((step c s).2))
        (maxDepthFrom ((step c s).2) 0 rest)) := by
  refine ⟨maxDepthFrom_le symbols reset 0, rfl, step_fail_eq, ?_⟩
  intro c s rest
  rw [maxDepthFrom, max_comm, maxDepthFrom_max]

/-- C7 witness: the step on `R` from the initial configuration fails
(no rule for `(q0, R, Z0)`) and leaves the configuration unchanged, and
the maximum depth of a concrete scanpath containing that failure is
non-negative. -/
theorem C7_max_stack_depth_witness :
    (step reset "R").2 = reset ∧
    0 ≤ get_max_stack_depth ["R", "O", "R"] :=
  ⟨(C7_max_stack_depth []).2.2.1 reset "R" (by decide),
   (C7_max_stack_depth ["R", "O", "R"]).1⟩

/-- C8 counterexample: the transition table is a genuine partial map —
its keys are pairwise distinct — but it has `123` entries, strictly more
than the `47` the claim states: two entries per overview/rhythm pair,
three per lead in the examination phases, two per feature, six
verification-phase singletons, four revisit entries per lead and three
per feature, and four completion entries. -/
theorem C8_counterexample :
    (deltaEntries.map Prod.fst).Nodup ∧
    deltaEntries.length = 123 ∧
    47 < deltaEntries.length := by
  refine ⟨by decide, by decide, by decide⟩

/-- C8 (amended): the transition table built by `_build_transitions`
contains exactly `123` distinct `(state, input symbol, stack-top)`
keys, each a literal table entry. -/
theorem C8_table_size :
    deltaEntries.length = 123 ∧ (deltaEntries.map Prod.fst).Nodup := by
  refine ⟨by decide, by decide⟩

/-- C9: starting from the reset configuration (state `q0`, stack
`[Z0]`), after any finite sequence of `step` calls with arbitrary input
symbols the stack is non-empty and its deepest (bottom) symbol is `Z0`:
no step removes the stack floor. -/
theorem C9_bottom_invariant (symbols : List String) :
    (runAll reset symbols).stack ≠ [] ∧
    (runAll reset symbols).stack.getLast? = some "Z0" := by
  have h := runAll_bottom symbols reset rfl
  exact ⟨fun hnil => by rw [hnil] at h; exact Option.noConfusion h, h⟩

/-- C10: the accepting state `q6` is a sink: no table entry has source
state `q6`, so in `q6` every `step` fails leaving the configuration
unchanged, and appending any symbol to an accepted scanpath yields a
rejected scanpath. -/
theorem C10_q6_sink (s t : String) (symbols : List String) (c : Config) :
    delta ("q6", s, t) = none ∧
    (c.current_state = "q6" → step c s = (false, c)) ∧
    (accepts symbols = true → accepts (symbols ++ [s]) = false) := by
  have hd : ∀ s' t' : String, delta ("q6", s', t') = none := by
    intro s' t'
    rcases h : delta ("q6", s', t') with _ | v
    · rfl
    · have := List.all_eq_true.mp deltaEntries_source_ne_q6 _ (delta_mem h)
      simp at this
  have hsink : ∀ c' : Config, c'.current_state = "q6" →
      ∀ s' : String, step c' s' = (false, c') := by
    rintro ⟨q, st⟩ hq s'
    simp only at hq
    subst hq
    rcases st with _ | ⟨top, rest⟩
    · rfl
    · simp [step, hd s' top]
  refine ⟨hd s t, fun hq => hsink c hq s, fun hacc => ?_⟩
  rw [accepts] at hacc
  rcases h : run? reset symbols with _ | cf
  · rw [h] at hacc
    exact absurd hacc (by simp)
  · rw [h] at hacc
    have hq : cf.current_state = "q6" := by
      simp [acceptCond, F, List.contains] at hacc
      exact hacc.1
    rw [accepts, run_append, h]
    show (match run? cf [s] with
      | some c' => acceptCond c'
      | none => false) = false
    rw [run?, hsink cf hq s]

/-- C10 witness: the sink property applied after the accepted expert
scanpath: one more `O` turns acceptance into rejection, and the
transition table has no entry for reading `O` in `q6` over `Z0`. -/
theorem C10_q6_sink_witness :
    delta ("q6", "O", "Z0") = none ∧
    accepts (tokenize "O R II P Q V ✓ ✓ O" ++ ["O"]) = false :=
  ⟨(C10_q6_sink "O" "Z0" [] ⟨"q6", ["Z0"]⟩).1,
   (C10_q6_sink "O" "Z0" (tokenize "O R II P Q V ✓ ✓ O")
      ⟨"q6", ["Z0"]⟩).2.2 (by decide)⟩

end ECGPDA
